import Mathlib

/-!
Verification of the natural-language specification of `bluesky-widgets`
against a shallow embedding of its data model and operations.

The repository ships models for visualizing streams of data-acquisition
"runs" (bluesky documents), plus plot-builder models with bounded history
and GUI view adapters.  The Python modules themselves are not present in
this source snapshot (only documentation, the `RecentLines.ipynb` example
and CI files are), so every operation below is modelled from the spec and
the shipped documentation, as marked in each doc comment.
-/

namespace BlueskyWidgets

/-! ## Streaming run aggregation (`bluesky_widgets.utils.streaming`) -/

/-- Modelled from the spec: a bluesky acquisition-run document.  The code
for `stream_documents_into_runs` is not in the snapshot; the spec says a
run stream is "one start, then events, then an optional stop", each event
a mapping from field name to scalar value. -/
inductive Document where
  | start (time : Nat)
  | event (data : List (String × Int))
  | stop (time : Nat)
deriving DecidableEq, Repr

/-- Modelled from the spec: the in-memory structured "Run" representation:
a start time, an optional stop time, and an ordered sequence of named
events. -/
structure Run where
  startTime : Option Nat
  stopTime : Option Nat
  events : List (List (String × Int))
deriving DecidableEq, Repr

/-- The empty (not yet started) run. -/
def emptyRun : Run := { startTime := none, stopTime := none, events := [] }

/-- Modelled from the spec: consuming one document mutates the run: a
start document sets the start time, an event document appends one event,
a stop document finalizes the run by setting the stop time.  A finalized
run (stop time present) is immutable: further documents are ignored. -/
def consumeDocument (r : Run) (d : Document) : Run :=
  if r.stopTime.isSome then r
  else
    match d with
    | .start t => { r with startTime := some t }
    | .event data => { r with events := r.events ++ [data] }
    | .stop t => { r with stopTime := some t }

/-- Modelled from the spec:
`bluesky_widgets.utils.streaming.stream_documents_into_runs` applies the
documents one at a time, in arrival order, to build the Run. -/
def stream_documents_into_runs (docs : List Document) : Run :=
  docs.foldl consumeDocument emptyRun

/-- The ordered stream of data points a run holds for one named data
source: the values recorded under that field name, in event order. -/
def Run.dataFor (r : Run) (source : String) : List Int :=
  r.events.filterMap (fun e => (e.find? (fun p => p.1 == source)).map Prod.snd)

/-- The documents of a well-formed acquisition-run stream: one start,
then the given events, then an optional stop. -/
def runStream (t0 : Nat) (evs : List (List (String × Int))) (stop? : Option Nat) :
    List Document :=
  Document.start t0 :: evs.map Document.event ++
    (match stop? with
     | none => []
     | some t1 => [Document.stop t1])

/-- A run is live when no stop document has been consumed yet. -/
def Run.live (r : Run) : Prop := r.stopTime = none

instance (r : Run) : Decidable r.live := by
  unfold Run.live; infer_instance

theorem consume_live_event (r : Run) (h : r.stopTime = none)
    (data : List (String × Int)) :
    consumeDocument r (.event data) =
      { r with events := r.events ++ [data] } := by
  simp [consumeDocument, h]

theorem consume_live_stop (r : Run) (h : r.stopTime = none) (t : Nat) :
    consumeDocument r (.stop t) = { r with stopTime := some t } := by
  simp [consumeDocument, h]

theorem foldl_consume_events (r : Run) (h : r.stopTime = none)
    (evs : List (List (String × Int))) :
    (evs.map Document.event).foldl consumeDocument r =
      { r with events := r.events ++ evs } := by
  induction evs generalizing r with
  | nil => simp
  | cons e rest ih =>
      simp only [List.map_cons, List.foldl_cons]
      rw [consume_live_event r h e, ih _ (by simp [h])]
      simp

theorem stream_run_eq (t0 : Nat) (evs : List (List (String × Int)))
    (stop? : Option Nat) :
    stream_documents_into_runs (runStream t0 evs stop?) =
      { startTime := some t0, stopTime := stop?, events := evs } := by
  cases stop? with
  | none =>
      simp only [stream_documents_into_runs, runStream, List.foldl_cons,
        List.append_nil]
      rw [show consumeDocument emptyRun (.start t0) =
        { startTime := some t0, stopTime := none, events := [] } from rfl]
      rw [foldl_consume_events _ rfl]
      simp
  | some t1 =>
      simp only [stream_documents_into_runs, runStream, List.foldl_cons,
        List.foldl_append]
      rw [show consumeDocument emptyRun (.start t0) =
        { startTime := some t0, stopTime := none, events := [] } from rfl]
      rw [foldl_consume_events _ rfl]
      simp [consume_live_stop]

/-! ## Plot builder `Lines` (`bluesky_widgets.models.plot_builders`) -/

/-- Modelled from the spec: an entry of the `runs` collection of a plot
builder: the run's uid and whether it was added with `pinned=True`
(`RecentLines.ipynb`). -/
structure RunEntry where
  uid : Nat
  pinned : Bool
deriving DecidableEq, Repr

/-- Modelled from the spec: a line artist on the figure's axes, keyed by
the uid of the run it plots. -/
structure LineArtist where
  runUid : Nat
deriving DecidableEq, Repr

/-- Modelled from the spec: the axes of the one figure a `Lines` builder
maintains, holding its line artists. -/
structure AxesState where
  artists : List LineArtist
deriving DecidableEq, Repr

/-- Modelled from the spec: the `Lines` plot-builder model
(`Lines("motor", ["det"], max_runs=n)`): a bounded history `max_runs`,
the mutable `runs` collection, and the figure's axes whose line artists
mirror the runs. -/
structure Lines where
  max_runs : Nat
  runs : List RunEntry
  axes : AxesState
deriving DecidableEq, Repr

/-- The un-pinned entries of a runs collection, oldest first. -/
def unpinned (l : List RunEntry) : List RunEntry :=
  l.filter (fun e => !e.pinned)

/-- Modelled from the spec: evicting the oldest retained un-pinned run
from the collection. -/
def evictOldest : List RunEntry → List RunEntry
  | [] => []
  | e :: rest => if e.pinned then e :: evictOldest rest else rest

/-- The uid of the oldest un-pinned run, if any. -/
def oldestUnpinnedUid (l : List RunEntry) : Option Nat :=
  (l.find? (fun e => !e.pinned)).map RunEntry.uid

/-- Removing the line artist plotting the run with the given uid. -/
def removeLine (artists : List LineArtist) (u : Nat) : List LineArtist :=
  artists.eraseP (fun a => a.runUid == u)

/-- The line artist for a run entry. -/
def entryLine (e : RunEntry) : LineArtist := ⟨e.uid⟩

/-- Modelled from the spec: `Lines.add_run(run, pinned=...)`: the run is
appended to the `runs` collection and a corresponding line artist is
added to the figure; if the number of un-pinned runs then exceeds
`max_runs`, the oldest un-pinned run is evicted together with its line.
Pinned runs do not count against the bound and are never evicted. -/
def Lines.add_run (m : Lines) (u : Nat) (p : Bool) : Lines :=
  let runs1 := m.runs ++ [⟨u, p⟩]
  let artists1 := m.axes.artists ++ [⟨u⟩]
  if m.max_runs < (unpinned runs1).length then
    { m with
      runs := evictOldest runs1,
      axes := ⟨match oldestUnpinnedUid runs1 with
               | some u0 => removeLine artists1 u0
               | none => artists1⟩ }
  else
    { m with runs := runs1, axes := ⟨artists1⟩ }

/-- Modelled from the spec: `del model.runs[i]` (`RecentLines.ipynb`):
the entry is removed from the `runs` collection and the run's line is
removed from the figure. -/
def Lines.deleteRun (m : Lines) (i : Nat) : Lines :=
  match m.runs[i]? with
  | none => m
  | some e =>
    { m with
      runs := m.runs.eraseIdx i,
      axes := ⟨removeLine m.axes.artists e.uid⟩ }

/-- A public operation on the `runs` collection: append (`add_run`) or
item deletion (`del runs[i]`). -/
inductive LinesOp where
  | add (u : Nat) (p : Bool)
  | delete (i : Nat)
deriving DecidableEq, Repr

/-- Apply one public operation. -/
def Lines.applyOp (m : Lines) : LinesOp → Lines
  | .add u p => m.add_run u p
  | .delete i => m.deleteRun i

/-- Apply a sequence of public operations, in order. -/
def Lines.applyOps (m : Lines) (ops : List LinesOp) : Lines :=
  ops.foldl Lines.applyOp m

/-- A fresh `Lines` model with history bound `n`. -/
def Lines.init (n : Nat) : Lines := ⟨n, [], ⟨[]⟩⟩

/-- The uids of the runs currently held by the model. -/
def runUids (m : Lines) : List Nat := m.runs.map RunEntry.uid

/-- The uids supplied by the `add` operations of a trace. -/
def addUids : List LinesOp → List Nat
  | [] => []
  | .add u _ :: rest => u :: addUids rest
  | .delete _ :: rest => addUids rest

/-- Run entries corresponding to a list of `add_run` arguments. -/
def addEntries (adds : List (Nat × Bool)) : List RunEntry :=
  adds.map (fun q => ⟨q.1, q.2⟩)

/-- Applying a list of `add_run` calls, in order. -/
def Lines.applyAdds (m : Lines) (adds : List (Nat × Bool)) : Lines :=
  m.applyOps (adds.map (fun q => LinesOp.add q.1 q.2))

theorem unpinned_append (l1 l2 : List RunEntry) :
    unpinned (l1 ++ l2) = unpinned l1 ++ unpinned l2 :=
  List.filter_append ..

theorem unpinned_evictOldest (l : List RunEntry) :
    unpinned (evictOldest l) = (unpinned l).tail := by
  induction l with
  | nil => rfl
  | cons e rest ih =>
      by_cases hp : e.pinned
      · simp [evictOldest, hp, unpinned, List.filter_cons] at *
        exact ih
      · simp [evictOldest, hp, unpinned, List.filter_cons]

theorem mem_evictOldest_of_pinned (l : List RunEntry) (e : RunEntry)
    (hp : e.pinned = true) (hm : e ∈ l) : e ∈ evictOldest l := by
  induction l with
  | nil => exact absurd hm (List.not_mem_nil e)
  | cons a rest ih =>
      by_cases ha : a.pinned
      · rcases List.mem_cons.mp hm with h | h
        · simp [evictOldest, ha, h]
        · simp [evictOldest, ha, ih h]
      · rcases List.mem_cons.mp hm with h | h
        · exact absurd (h ▸ hp) (by simpa using ha)
        · simpa [evictOldest, ha] using h

theorem evictOldest_sublist (l : List RunEntry) :
    List.Sublist (evictOldest l) l := by
  induction l with
  | nil => exact List.Sublist.refl _
  | cons a rest ih =>
      by_cases ha : a.pinned
      · simpa [evictOldest, ha] using List.Sublist.cons₂ a ih
      · simp [evictOldest, ha]

theorem max_runs_add_run (m : Lines) (u : Nat) (p : Bool) :
    (m.add_run u p).max_runs = m.max_runs := by
  by_cases h : m.max_runs < (unpinned (m.runs ++ [⟨u, p⟩])).length <;>
    simp [Lines.add_run, h]

theorem unpinned_add_run (m : Lines) (u : Nat) (p : Bool) :
    unpinned ((m.add_run u p).runs) =
      if m.max_runs < (unpinned (m.runs ++ [⟨u, p⟩])).length then
        (unpinned (m.runs ++ [⟨u, p⟩])).tail
      else unpinned (m.runs ++ [⟨u, p⟩]) := by
  by_cases h : m.max_runs < (unpinned (m.runs ++ [⟨u, p⟩])).length <;>
    simp [Lines.add_run, h, unpinned_evictOldest]

theorem unpinned_length_add_run (m : Lines) (u : Nat) (p : Bool)
    (hb : (unpinned m.runs).length ≤ m.max_runs) :
    (unpinned ((m.add_run u p).runs)).length ≤ m.max_runs := by
  have hlen : (unpinned (m.runs ++ [⟨u, p⟩])).length ≤
      (unpinned m.runs).length + 1 := by
    rw [unpinned_append]
    have : (unpinned [⟨u, p⟩]).length ≤ 1 := by
      by_cases hp : p <;> simp [unpinned, List.filter_cons, hp]
    simp only [List.length_append]
    omega
  rw [unpinned_add_run]
  by_cases h : m.max_runs < (unpinned (m.runs ++ [⟨u, p⟩])).length
  · simp only [h, if_pos, List.length_tail]
    omega
  · simp only [h, if_neg, not_false_iff]
    omega

theorem applyAdds_cons (m : Lines) (q : Nat × Bool) (rest : List (Nat × Bool)) :
    m.applyAdds (q :: rest) = (m.add_run q.1 q.2).applyAdds rest := by
  simp [Lines.applyAdds, Lines.applyOps, Lines.applyOp]

theorem unpinned_length_applyAdds (m : Lines) (adds : List (Nat × Bool))
    (hb : (unpinned m.runs).length ≤ m.max_runs) :
    (unpinned (m.applyAdds adds).runs).length ≤ m.max_runs := by
  induction adds generalizing m with
  | nil => simpa [Lines.applyAdds, Lines.applyOps] using hb
  | cons q rest ih =>
      rw [applyAdds_cons]
      have hb' : (unpinned ((m.add_run q.1 q.2).runs)).length ≤
          (m.add_run q.1 q.2).max_runs := by
        rw [max_runs_add_run]
        exact unpinned_length_add_run m q.1 q.2 hb
      have := ih (m.add_run q.1 q.2) hb'
      rwa [max_runs_add_run] at this

theorem isSuffix_append_same {α : Type} {l1 l2 : List α} (t : List α)
    (h : l1.IsSuffix l2) : (l1 ++ t).IsSuffix (l2 ++ t) := by
  obtain ⟨s, hs⟩ := h
  exact ⟨s, by rw [← hs, List.append_assoc]⟩

theorem unpinned_add_run_suffix (m : Lines) (u : Nat) (p : Bool) :
    (unpinned ((m.add_run u p).runs)).IsSuffix
      (unpinned m.runs ++ unpinned [⟨u, p⟩]) := by
  rw [unpinned_add_run, ← unpinned_append]
  by_cases h : m.max_runs < (unpinned (m.runs ++ [⟨u, p⟩])).length
  · simp only [h, if_pos]
    exact List.tail_suffix _
  · simp only [h, if_neg, not_false_iff]
    exact List.suffix_refl _

theorem unpinned_applyAdds_suffix (m : Lines) (adds : List (Nat × Bool)) :
    (unpinned (m.applyAdds adds).runs).IsSuffix
      (unpinned m.runs ++ unpinned (addEntries adds)) := by
  induction adds generalizing m with
  | nil =>
      simp only [Lines.applyAdds, List.map_nil, Lines.applyOps, List.foldl_nil,
        addEntries, unpinned, List.filter_nil, List.append_nil]
      exact List.suffix_refl _
  | cons q rest ih =>
      rw [applyAdds_cons]
      have hih := ih (m.add_run q.1 q.2)
      have hstep := unpinned_add_run_suffix m q.1 q.2
      have hstep2 := isSuffix_append_same (unpinned (addEntries rest)) hstep
      have htrans := hih.trans hstep2
      have hsplit : addEntries (q :: rest) = [⟨q.1, q.2⟩] ++ addEntries rest := by
        simp [addEntries]
      rw [hsplit, unpinned_append, ← List.append_assoc]
      exact htrans

theorem pinned_filter_evictOldest (l : List RunEntry) :
    (evictOldest l).filter (fun e => e.pinned) =
      l.filter (fun e => e.pinned) := by
  induction l with
  | nil => rfl
  | cons a rest ih =>
      by_cases ha : a.pinned
      · simp [evictOldest, ha, List.filter_cons, ih]
      · simp [evictOldest, ha, List.filter_cons]

theorem pinned_filter_add_run (m : Lines) (u : Nat) (p : Bool) :
    ((m.add_run u p).runs).filter (fun e => e.pinned) =
      (m.runs ++ [(⟨u, p⟩ : RunEntry)]).filter (fun e => e.pinned) := by
  by_cases h : m.max_runs < (unpinned (m.runs ++ [⟨u, p⟩])).length
  · simp only [Lines.add_run, h, if_pos]
    exact pinned_filter_evictOldest _
  · simp [Lines.add_run, h]

theorem pinned_filter_applyAdds (m : Lines) (adds : List (Nat × Bool)) :
    ((m.applyAdds adds).runs).filter (fun e => e.pinned) =
      (m.runs ++ addEntries adds).filter (fun e => e.pinned) := by
  induction adds generalizing m with
  | nil => simp [Lines.applyAdds, Lines.applyOps, addEntries]
  | cons q rest ih =>
      rw [applyAdds_cons, ih]
      rw [List.filter_append, pinned_filter_add_run, List.filter_append,
        List.filter_append]
      have hsplit : addEntries (q :: rest) = [⟨q.1, q.2⟩] ++ addEntries rest := by
        simp [addEntries]
      rw [hsplit, List.filter_append, List.append_assoc]

theorem mem_add_run_of_pinned (m : Lines) (e : RunEntry) (hp : e.pinned = true)
    (hm : e ∈ m.runs) (u : Nat) (p : Bool) : e ∈ (m.add_run u p).runs := by
  by_cases h : m.max_runs < (unpinned (m.runs ++ [⟨u, p⟩])).length
  · simp only [Lines.add_run, h, if_pos]
    exact mem_evictOldest_of_pinned _ e hp (by simp [hm])
  · simp [Lines.add_run, h, hm]

theorem self_mem_add_run_of_pinned (m : Lines) (u : Nat) :
    (⟨u, true⟩ : RunEntry) ∈ (m.add_run u true).runs := by
  by_cases h : m.max_runs < (unpinned (m.runs ++ [⟨u, true⟩])).length
  · simp only [Lines.add_run, h, if_pos]
    exact mem_evictOldest_of_pinned _ _ rfl (by simp)
  · simp [Lines.add_run, h]

theorem mem_applyAdds_of_pinned (m : Lines) (e : RunEntry) (hp : e.pinned = true)
    (hm : e ∈ m.runs) (adds : List (Nat × Bool)) : e ∈ (m.applyAdds adds).runs := by
  induction adds generalizing m with
  | nil => simpa [Lines.applyAdds, Lines.applyOps] using hm
  | cons q rest ih =>
      rw [applyAdds_cons]
      exact ih _ (mem_add_run_of_pinned m e hp hm q.1 q.2)

/-- The figure's line artists mirror the runs collection, one line per
run, in order. -/
def Mirror (m : Lines) : Prop := m.axes.artists = m.runs.map entryLine

theorem evict_mirror (l : List RunEntry) (e0 : RunEntry)
    (hn : (l.map RunEntry.uid).Nodup)
    (hf : l.find? (fun e => !e.pinned) = some e0) :
    (evictOldest l).map entryLine = removeLine (l.map entryLine) e0.uid := by
  induction l with
  | nil => simp at hf
  | cons a rest ih =>
      rw [List.map_cons, List.nodup_cons] at hn
      by_cases ha : a.pinned
      · have hf' : rest.find? (fun e => !e.pinned) = some e0 := by
          rw [List.find?_cons_of_neg _ (by simp [ha])] at hf
          exact hf
        have he0 : e0 ∈ rest := List.mem_of_find?_eq_some hf'
        have hne : (a.uid == e0.uid) = false := by
          simp only [beq_eq_false_iff_ne, ne_eq]
          intro hcontra
          exact hn.1 (hcontra ▸ List.mem_map_of_mem RunEntry.uid he0)
        simp only [evictOldest, ha, if_pos, List.map_cons]
        rw [ih hn.2 hf']
        simp [removeLine, List.eraseP_cons, entryLine, hne]
      · have he0 : e0 = a := by
          rw [List.find?_cons_of_pos _ (by simp [ha])] at hf
          exact (Option.some_inj.mp hf).symm
        simp [evictOldest, ha, removeLine, List.eraseP_cons, he0, entryLine]

theorem delete_mirror (l : List RunEntry) (i : Nat) (e : RunEntry)
    (hn : (l.map RunEntry.uid).Nodup) (hi : l[i]? = some e) :
    removeLine (l.map entryLine) e.uid = (l.eraseIdx i).map entryLine := by
  induction l generalizing i with
  | nil => simp at hi
  | cons a rest ih =>
      rw [List.map_cons, List.nodup_cons] at hn
      cases i with
      | zero =>
          have hea : a = e := by simpa using hi
          subst hea
          simp [removeLine, List.eraseP_cons, entryLine, List.eraseIdx_cons_zero]
      | succ j =>
          have hi' : rest[j]? = some e := by simpa using hi
          have he : e ∈ rest := List.getElem?_mem hi'
          have hne : (a.uid == e.uid) = false := by
            simp only [beq_eq_false_iff_ne, ne_eq]
            intro hcontra
            exact hn.1 (hcontra ▸ List.mem_map_of_mem RunEntry.uid he)
          simp only [List.map_cons, removeLine, List.eraseP_cons, entryLine,
            hne, cond_false, List.eraseIdx_cons_succ]
          have := ih j hn.2 hi'
          simp only [removeLine, entryLine] at this
          rw [this]

theorem add_run_mirror (m : Lines) (u : Nat) (p : Bool) (hmir : Mirror m)
    (hn : (runUids m ++ [u]).Nodup) :
    Mirror (m.add_run u p) ∧
    List.Sublist (runUids (m.add_run u p)) (runUids m ++ [u]) := by
  have hruns1 : (m.runs ++ [(⟨u, p⟩ : RunEntry)]).map RunEntry.uid =
      runUids m ++ [u] := by
    simp [runUids]
  by_cases h : m.max_runs < (unpinned (m.runs ++ [⟨u, p⟩])).length
  · have hne : unpinned (m.runs ++ [⟨u, p⟩]) ≠ [] := by
      intro hnil
      rw [hnil] at h
      simp at h
    have hfind : ∃ e0, (m.runs ++ [(⟨u, p⟩ : RunEntry)]).find?
        (fun e => !e.pinned) = some e0 := by
      rcases List.exists_cons_of_ne_nil hne with ⟨a, l, hl⟩
      have ha : a ∈ unpinned (m.runs ++ [⟨u, p⟩]) := by rw [hl]; simp
      have := List.of_mem_filter ha
      have hmem := List.mem_of_mem_filter ha
      have : ((m.runs ++ [(⟨u, p⟩ : RunEntry)]).find? (fun e => !e.pinned)).isSome := by
        rw [List.find?_isSome]
        exact ⟨a, hmem, this⟩
      rcases Option.isSome_iff_exists.mp this with ⟨e0, he0⟩
      exact ⟨e0, he0⟩
    rcases hfind with ⟨e0, he0⟩
    constructor
    · show (m.add_run u p).axes.artists = _
      simp only [Lines.add_run, h, if_pos]
      simp only [oldestUnpinnedUid, he0, Option.map_some]
      have hev := evict_mirror (m.runs ++ [⟨u, p⟩]) e0 (hruns1 ▸ hn) he0
      rw [hmir]
      show removeLine (m.runs.map entryLine ++ [⟨u⟩]) e0.uid =
        (evictOldest (m.runs ++ [⟨u, p⟩])).map entryLine
      rw [hev]
      simp [entryLine]
    · simp only [runUids, Lines.add_run, h, if_pos]
      have := (evictOldest_sublist (m.runs ++ [⟨u, p⟩])).map RunEntry.uid
      rwa [hruns1] at this
  · constructor
    · show (m.add_run u p).axes.artists = _
      simp only [Lines.add_run, h, if_neg, not_false_iff]
      rw [hmir]
      simp [entryLine]
    · simp only [runUids, Lines.add_run, h, if_neg, not_false_iff]
      rw [show (m.runs ++ [(⟨u, p⟩ : RunEntry)]).map RunEntry.uid =
        runUids m ++ [u] from hruns1]
      exact List.Sublist.refl _

theorem deleteRun_mirror (m : Lines) (i : Nat) (hmir : Mirror m)
    (hn : (runUids m).Nodup) :
    Mirror (m.deleteRun i) ∧
    List.Sublist (runUids (m.deleteRun i)) (runUids m) := by
  cases hcase : m.runs[i]? with
  | none =>
      simp only [Lines.deleteRun, hcase]
      exact ⟨hmir, List.Sublist.refl _⟩
  | some e =>
      constructor
      · show (m.deleteRun i).axes.artists = _
        simp only [Lines.deleteRun, hcase]
        rw [hmir]
        exact delete_mirror m.runs i e hn hcase
      · simp only [runUids, Lines.deleteRun, hcase]
        exact (List.eraseIdx_sublist m.runs i).map RunEntry.uid

theorem applyOps_mirror (m : Lines) (ops : List LinesOp) (hmir : Mirror m)
    (hn : (runUids m ++ addUids ops).Nodup) :
    Mirror (m.applyOps ops) ∧
    List.Sublist (runUids (m.applyOps ops)) (runUids m ++ addUids ops) := by
  induction ops generalizing m with
  | nil =>
      simp only [Lines.applyOps, List.foldl_nil, addUids, List.append_nil] at *
      exact ⟨hmir, List.Sublist.refl _⟩
  | cons op rest ih =>
      have hstep : m.applyOps (op :: rest) = (m.applyOp op).applyOps rest := by
        simp [Lines.applyOps]
      rw [hstep]
      cases op with
      | add u p =>
          have hau : addUids (.add u p :: rest) = u :: addUids rest := rfl
          rw [hau] at hn
          have hn1 : (runUids m ++ [u]).Nodup := by
            have : List.Sublist (runUids m ++ [u]) (runUids m ++ u :: addUids rest) := by
              apply List.Sublist.append_left
              exact List.cons_sublist_cons.mpr (List.nil_sublist _)
            exact this.nodup hn
          have hadd := add_run_mirror m u p hmir hn1
          have hn2 : (runUids (m.add_run u p) ++ addUids rest).Nodup := by
            have hsub : List.Sublist (runUids (m.add_run u p) ++ addUids rest)
                ((runUids m ++ [u]) ++ addUids rest) :=
              hadd.2.append_right _
            have heq : (runUids m ++ [u]) ++ addUids rest =
                runUids m ++ u :: addUids rest := by simp
            exact (heq ▸ hsub).nodup hn
          have hih := ih (m.add_run u p) hadd.1 hn2
          refine ⟨hih.1, ?_⟩
          have h2 : List.Sublist (runUids (m.add_run u p) ++ addUids rest)
              (runUids m ++ u :: addUids rest) := by
            have heq : (runUids m ++ [u]) ++ addUids rest =
                runUids m ++ u :: addUids rest := by simp
            exact heq ▸ hadd.2.append_right _
          exact hih.2.trans h2
      | delete i =>
          have hau : addUids (.delete i :: rest) = addUids rest := rfl
          rw [hau] at hn
          have hn0 : (runUids m).Nodup := ((List.nodup_append).mp hn).1
          have hdel := deleteRun_mirror m i hmir hn0
          have hn2 : (runUids (m.deleteRun i) ++ addUids rest).Nodup :=
            (hdel.2.append_right _).nodup hn
          have hih := ih (m.deleteRun i) hdel.1 hn2
          exact ⟨hih.1, hih.2.trans (hdel.2.append_right _)⟩

theorem applyAdds_append (m : Lines) (a b : List (Nat × Bool)) :
    m.applyAdds (a ++ b) = (m.applyAdds a).applyAdds b := by
  simp [Lines.applyAdds, Lines.applyOps, List.map_append, List.foldl_append]

theorem applyAdds_single (m : Lines) (u : Nat) (p : Bool) :
    m.applyAdds [(u, p)] = m.add_run u p := by
  simp [Lines.applyAdds, Lines.applyOps, Lines.applyOp]

theorem addUids_map_adds (adds : List (Nat × Bool)) :
    addUids (adds.map (fun q => LinesOp.add q.1 q.2)) = adds.map Prod.fst := by
  induction adds with
  | nil => rfl
  | cons q rest ih => simp [addUids, ih]

/-- Claim C2 (counterexample): with history bound `max_runs = 1`, adding
a pinned run and then two ordinary runs leaves two runs in the `runs`
collection, so the collection does not contain at most the one most
recently added run: the pinned run, which is not among the one most
recently added, is retained. -/
theorem lines_bounded_history_cex :
    ¬ ((((Lines.init 1).add_run 0 true).add_run 1 false).add_run 2 false).runs.length ≤ 1 ∧
    ((((Lines.init 1).add_run 0 true).add_run 1 false).add_run 2 false).runs =
      [⟨0, true⟩, ⟨2, false⟩] := by
  constructor <;> decide

/-- Claim C2 (amended): for a `Lines` model with history bound `n`, after
any sequence of `add_run` calls the `runs` collection contains at most
the `n` most recently added un-pinned runs (its un-pinned entries are a
suffix, in arrival order, of the un-pinned runs added, and number at most
`n`), together with every run added with `pinned=True` (the pinned
entries of the collection are exactly the pinned runs added, in order);
the figure's line artists correspond one-to-one, in order, to the
retained runs (given distinct run uids), so the set of line artists on
the figure obeys the same bound; adding an un-pinned run beyond the
bound evicts the oldest retained un-pinned run. -/
theorem lines_bounded_history (n : Nat) (adds : List (Nat × Bool)) :
    (unpinned ((Lines.init n).applyAdds adds).runs).length ≤ n ∧
    (unpinned ((Lines.init n).applyAdds adds).runs).IsSuffix
      (unpinned (addEntries adds)) ∧
    ((Lines.init n).applyAdds adds).runs.filter (fun e => e.pinned) =
      (addEntries adds).filter (fun e => e.pinned) ∧
    ((adds.map Prod.fst).Nodup →
      ((Lines.init n).applyAdds adds).axes.artists =
        ((Lines.init n).applyAdds adds).runs.map entryLine) ∧
    (∀ (m : Lines) (u : Nat), unpinned m.runs ≠ [] →
      m.max_runs < (unpinned m.runs).length + 1 →
      unpinned ((m.add_run u false).runs) =
        (unpinned m.runs).tail ++ [⟨u, false⟩]) := by
  refine ⟨?_, ?_, ?_, ?_, ?_⟩
  · have := unpinned_length_applyAdds (Lines.init n) adds
      (by simp [Lines.init, unpinned])
    simpa [Lines.init] using this
  · have := unpinned_applyAdds_suffix (Lines.init n) adds
    simpa [Lines.init, unpinned] using this
  · have := pinned_filter_applyAdds (Lines.init n) adds
    simpa [Lines.init] using this
  · intro hnd
    have hn0 : (runUids (Lines.init n) ++
        addUids (adds.map (fun q => LinesOp.add q.1 q.2))).Nodup := by
      rw [addUids_map_adds]
      simpa [runUids, Lines.init] using hnd
    exact (applyOps_mirror (Lines.init n)
      (adds.map (fun q => LinesOp.add q.1 q.2)) rfl hn0).1
  · intro m u hne hlt
    have hup : unpinned (m.runs ++ [⟨u, false⟩]) =
        unpinned m.runs ++ [⟨u, false⟩] := by
      rw [unpinned_append]
      simp [unpinned, List.filter_cons]
    have hcond : m.max_runs < (unpinned (m.runs ++ [⟨u, false⟩])).length := by
      rw [hup]
      simp only [List.length_append, List.length_cons, List.length_nil]
      omega
    rw [unpinned_add_run, if_pos hcond, hup]
    rcases List.exists_cons_of_ne_nil hne with ⟨a, l, hl⟩
    rw [hl]
    simp

/-- Witness for the amended Claim C2 at concrete inputs: after the three
adds of the counterexample scenario the un-pinned bound holds, the
pinned run is retained, the line artists mirror the retained runs, and
the eviction step drops the oldest un-pinned run. -/
theorem lines_bounded_history_witness :
    (unpinned ((Lines.init 1).applyAdds [(0, true), (1, false), (2, false)]).runs).length ≤ 1 ∧
    ((Lines.init 1).applyAdds [(0, true), (1, false), (2, false)]).runs.filter
      (fun e => e.pinned) = [⟨0, true⟩] ∧
    ((Lines.init 1).applyAdds [(0, true), (1, false), (2, false)]).axes.artists =
      ((Lines.init 1).applyAdds [(0, true), (1, false), (2, false)]).runs.map entryLine ∧
    unpinned (((⟨1, [⟨0, false⟩], ⟨[⟨0⟩]⟩⟩ : Lines).add_run 2 false).runs) = [⟨2, false⟩] := by
  have h := lines_bounded_history 1 [(0, true), (1, false), (2, false)]
  refine ⟨h.1, ?_, h.2.2.2.1 (by decide), ?_⟩
  · rw [h.2.2.1]
    decide
  · have h5 := (lines_bounded_history 1 []).2.2.2.2 ⟨1, [⟨0, false⟩], ⟨[⟨0⟩]⟩⟩ 2
      (by decide) (by decide)
    rw [h5]
    decide

/-- Claim C8: a run added with `add_run(run, pinned=True)` is exempt from
the bounded-history eviction: it remains in the `runs` collection, and
its line remains on the figure, after any further `add_run` calls — in
particular after more than `max_runs` additional runs have been added. -/
theorem pinned_run_exempt (n u : Nat) (adds1 adds2 : List (Nat × Bool))
    (hw : ((adds1 ++ [(u, true)] ++ adds2).map Prod.fst).Nodup) :
    (⟨u, true⟩ : RunEntry) ∈
      ((Lines.init n).applyAdds (adds1 ++ [(u, true)] ++ adds2)).runs ∧
    (⟨u⟩ : LineArtist) ∈
      ((Lines.init n).applyAdds (adds1 ++ [(u, true)] ++ adds2)).axes.artists := by
  have hmem1 : (⟨u, true⟩ : RunEntry) ∈
      ((Lines.init n).applyAdds (adds1 ++ [(u, true)])).runs := by
    rw [applyAdds_append, applyAdds_single]
    exact self_mem_add_run_of_pinned _ u
  have hmem : (⟨u, true⟩ : RunEntry) ∈
      ((Lines.init n).applyAdds (adds1 ++ [(u, true)] ++ adds2)).runs := by
    rw [applyAdds_append]
    exact mem_applyAdds_of_pinned _ _ rfl hmem1 adds2
  have hmir0 : Mirror (Lines.init n) := rfl
  have hn0 : (runUids (Lines.init n) ++
      addUids ((adds1 ++ [(u, true)] ++ adds2).map
        (fun q => LinesOp.add q.1 q.2))).Nodup := by
    rw [addUids_map_adds]
    simpa [runUids, Lines.init] using hw
  have hmir := applyOps_mirror (Lines.init n)
    ((adds1 ++ [(u, true)] ++ adds2).map (fun q => LinesOp.add q.1 q.2))
    hmir0 hn0
  refine ⟨hmem, ?_⟩
  have : ((Lines.init n).applyAdds (adds1 ++ [(u, true)] ++ adds2)).axes.artists =
      ((Lines.init n).applyAdds (adds1 ++ [(u, true)] ++ adds2)).runs.map entryLine :=
    hmir.1
  rw [this]
  exact List.mem_map.mpr ⟨⟨u, true⟩, hmem, rfl⟩

/-- Witness for Claim C8 at a concrete input: `max_runs = 1`, a pinned
run and then two more runs; the pinned run and its line remain. -/
theorem pinned_run_exempt_witness :
    (⟨0, true⟩ : RunEntry) ∈
      ((Lines.init 1).applyAdds ([] ++ [(0, true)] ++ [(1, false), (2, false)])).runs ∧
    (⟨0⟩ : LineArtist) ∈
      ((Lines.init 1).applyAdds ([] ++ [(0, true)] ++ [(1, false), (2, false)])).axes.artists :=
  pinned_run_exempt 1 0 [] [(1, false), (2, false)] (by decide)

theorem max_runs_applyOp (m : Lines) (op : LinesOp) :
    (m.applyOp op).max_runs = m.max_runs := by
  cases op with
  | add u p => exact max_runs_add_run m u p
  | delete i => cases hcase : m.runs[i]? <;> simp [Lines.applyOp, Lines.deleteRun, hcase]

theorem applyOps_cons (m : Lines) (op : LinesOp) (rest : List LinesOp) :
    m.applyOps (op :: rest) = (m.applyOp op).applyOps rest := by
  simp [Lines.applyOps]

theorem max_runs_applyOps (m : Lines) (ops : List LinesOp) :
    (m.applyOps ops).max_runs = m.max_runs := by
  induction ops generalizing m with
  | nil => rfl
  | cons op rest ih => rw [applyOps_cons, ih, max_runs_applyOp]

theorem unpinned_length_applyOp (m : Lines) (op : LinesOp)
    (hb : (unpinned m.runs).length ≤ m.max_runs) :
    (unpinned ((m.applyOp op).runs)).length ≤ m.max_runs := by
  cases op with
  | add u p => exact unpinned_length_add_run m u p hb
  | delete i =>
      cases hcase : m.runs[i]? with
      | none => simpa [Lines.applyOp, Lines.deleteRun, hcase] using hb
      | some e =>
          simp only [Lines.applyOp, Lines.deleteRun, hcase]
          have hsub : List.Sublist (unpinned (m.runs.eraseIdx i)) (unpinned m.runs) :=
            (List.eraseIdx_sublist m.runs i).filter _
          exact le_trans hsub.length_le hb

theorem unpinned_length_applyOps (m : Lines) (ops : List LinesOp)
    (hb : (unpinned m.runs).length ≤ m.max_runs) :
    (unpinned ((m.applyOps ops).runs)).length ≤ m.max_runs := by
  induction ops generalizing m with
  | nil => simpa [Lines.applyOps] using hb
  | cons op rest ih =>
      rw [applyOps_cons]
      have h1 := unpinned_length_applyOp m op hb
      have h2 := ih (m.applyOp op) (by rwa [max_runs_applyOp])
      rwa [max_runs_applyOp] at h2

theorem evictOldest_append (l l2 : List RunEntry) (hne : unpinned l ≠ []) :
    evictOldest (l ++ l2) = evictOldest l ++ l2 := by
  induction l with
  | nil => exact absurd rfl hne
  | cons a rest ih =>
      by_cases ha : a.pinned
      · have hrest : unpinned rest ≠ [] := by
          simpa [unpinned, List.filter_cons, ha] using hne
        simp [evictOldest, ha, ih hrest]
      · simp [evictOldest, ha]

theorem add_run_getLast (m : Lines) (u : Nat) (p : Bool)
    (hb : (unpinned m.runs).length ≤ m.max_runs) (hpos : 0 < m.max_runs)
    (hmir : Mirror m) :
    (m.add_run u p).runs.getLast? = some ⟨u, p⟩ ∧
    (m.add_run u p).axes.artists.getLast? = some ⟨u⟩ := by
  by_cases h : m.max_runs < (unpinned (m.runs ++ [(⟨u, p⟩ : RunEntry)])).length
  · have hlen : (unpinned (m.runs ++ [(⟨u, p⟩ : RunEntry)])).length ≤
        (unpinned m.runs).length + 1 := by
      rw [unpinned_append]
      have h1 : (unpinned [(⟨u, p⟩ : RunEntry)]).length ≤ 1 := by
        by_cases hp : p <;> simp [unpinned, List.filter_cons, hp]
      simp only [List.length_append]
      omega
    have hne : unpinned m.runs ≠ [] := by
      intro hnil
      rw [hnil] at hlen
      simp only [List.length_nil] at hlen
      omega
    have hfs : (m.runs.find? (fun e => !e.pinned)).isSome := by
      rw [List.find?_isSome]
      rcases List.exists_cons_of_ne_nil hne with ⟨a, l, hl⟩
      have ha : a ∈ m.runs.filter (fun e => !e.pinned) := by
        show a ∈ unpinned m.runs
        rw [hl]
        simp
      have hmem := List.mem_of_mem_filter ha
      have hp := List.of_mem_filter ha
      exact ⟨a, hmem, hp⟩
    rcases Option.isSome_iff_exists.mp hfs with ⟨e0, he0⟩
    have hfind : (m.runs ++ [(⟨u, p⟩ : RunEntry)]).find? (fun e => !e.pinned) =
        some e0 := by
      rw [List.find?_append, he0]
      rfl
    constructor
    · simp only [Lines.add_run, h, if_pos]
      rw [evictOldest_append m.runs [⟨u, p⟩] hne]
      exact List.getLast?_concat _
    · simp only [Lines.add_run, h, if_pos, oldestUnpinnedUid, hfind, Option.map]
      have he0mem : entryLine e0 ∈ m.axes.artists := by
        rw [hmir]
        exact List.mem_map_of_mem entryLine (List.mem_of_find?_eq_some he0)
      show (removeLine (m.axes.artists ++ [⟨u⟩]) e0.uid).getLast? = some ⟨u⟩
      rw [show removeLine (m.axes.artists ++ [⟨u⟩]) e0.uid =
        removeLine m.axes.artists e0.uid ++ [⟨u⟩] from
        List.eraseP_append_left (by simp [entryLine]) _ he0mem]
      exact List.getLast?_concat _
  · constructor <;> simp only [Lines.add_run, h, if_neg, not_false_iff] <;>
      exact List.getLast?_concat _

/-- Claim C9: the `runs` collection of a plot-builder model is a mutable
list supporting both append (`add_run`) and item deletion
(`del model.runs[i]`), and the figure mirrors both directions: the line
artists always correspond one-to-one, in order, to the runs; appending a
run makes its line the last artist on the axes; deleting a run removes
exactly that run's line from the figure. -/
theorem runs_append_delete_mirror (n : Nat) (ops : List LinesOp)
    (hw : (addUids ops).Nodup) (hpos : 0 < n) :
    ((Lines.init n).applyOps ops).axes.artists =
      ((Lines.init n).applyOps ops).runs.map entryLine ∧
    (∀ u p, (((Lines.init n).applyOps ops).add_run u p).runs.getLast? =
        some ⟨u, p⟩ ∧
      (((Lines.init n).applyOps ops).add_run u p).axes.artists.getLast? =
        some ⟨u⟩) ∧
    (∀ i e, ((Lines.init n).applyOps ops).runs[i]? = some e →
      (((Lines.init n).applyOps ops).deleteRun i).runs =
        ((Lines.init n).applyOps ops).runs.eraseIdx i ∧
      (((Lines.init n).applyOps ops).deleteRun i).axes.artists =
        (((Lines.init n).applyOps ops).runs.eraseIdx i).map entryLine) := by
  have hmir0 : Mirror (Lines.init n) := rfl
  have hn0 : (runUids (Lines.init n) ++ addUids ops).Nodup := by
    simpa [runUids, Lines.init] using hw
  have hmain := applyOps_mirror (Lines.init n) ops hmir0 hn0
  have hnodup : (runUids ((Lines.init n).applyOps ops)).Nodup :=
    hmain.2.nodup hn0
  have hmax : ((Lines.init n).applyOps ops).max_runs = n := by
    rw [max_runs_applyOps]
    rfl
  have hbound : (unpinned ((Lines.init n).applyOps ops).runs).length ≤
      ((Lines.init n).applyOps ops).max_runs := by
    rw [hmax]
    have := unpinned_length_applyOps (Lines.init n) ops
      (by simp [Lines.init, unpinned])
    simpa [Lines.init] using this
  refine ⟨hmain.1, ?_, ?_⟩
  · intro u p
    exact add_run_getLast _ u p hbound (by rw [hmax]; exact hpos) hmain.1
  · intro i e hi
    constructor
    · simp [Lines.deleteRun, hi]
    · simp only [Lines.deleteRun, hi]
      show removeLine ((Lines.init n).applyOps ops).axes.artists e.uid = _
      rw [hmain.1]
      exact delete_mirror _ i e hnodup hi

/-- Witness for Claim C9 at a concrete input: one added run with bound
one; its line mirrors it, a further append lands last on both sides, and
deleting the run empties the figure. -/
theorem runs_append_delete_mirror_witness :
    ((Lines.init 1).applyOps [.add 0 false]).axes.artists =
      ((Lines.init 1).applyOps [.add 0 false]).runs.map entryLine ∧
    (((Lines.init 1).applyOps [.add 0 false]).add_run 1 false).runs.getLast? =
      some ⟨1, false⟩ ∧
    (((Lines.init 1).applyOps [.add 0 false]).deleteRun 0).axes.artists = [] := by
  have h := runs_append_delete_mirror 1 [.add 0 false] (by decide) (by decide)
  refine ⟨h.1, (h.2.1 1 false).1, ?_⟩
  have h3 := (h.2.2 0 ⟨0, false⟩ (by decide)).2
  rw [h3]
  decide

/-- Claim C1: for every stream of acquisition-run documents (one start,
then events, then an optional stop) fed through
`stream_documents_into_runs`, the resulting Run holds the full event
sequence in arrival order, hence for each named data source exactly the
stream of that source's data points in the order the event documents
arrived; and documents are applied one at a time in arrival order with
no reordering, retry, or dropping: the run after `docs ++ [d]` is the
run after `docs` with `d` applied once. -/
theorem stream_documents_into_runs_ordered (t0 : Nat)
    (evs : List (List (String × Int))) (stop? : Option Nat) (source : String) :
    (stream_documents_into_runs (runStream t0 evs stop?)).events = evs ∧
    (stream_documents_into_runs (runStream t0 evs stop?)).dataFor source =
      evs.filterMap (fun e => (e.find? (fun q => q.1 == source)).map Prod.snd) ∧
    (∀ (docs : List Document) (d : Document),
      stream_documents_into_runs (docs ++ [d]) =
        consumeDocument (stream_documents_into_runs docs) d) := by
  refine ⟨?_, ?_, ?_⟩
  · rw [stream_run_eq]
  · rw [stream_run_eq]
    rfl
  · intro docs d
    simp [stream_documents_into_runs, List.foldl_append]

/-- Claim C3: every Run built from a well-formed stream has a start time
and an optional stop time; while a Run is live, consuming an event
document only appends that event (start time, stop time and prior events
are untouched) and consuming a stop document only records the stop time;
once a Run is finalized, consuming any further document changes
nothing. -/
theorem run_mutation_discipline (r : Run) (d : Document) (t0 : Nat)
    (evs : List (List (String × Int))) (stop? : Option Nat) :
    (stream_documents_into_runs (runStream t0 evs stop?)).startTime = some t0 ∧
    (stream_documents_into_runs (runStream t0 evs stop?)).stopTime = stop? ∧
    (r.live → ∀ data, consumeDocument r (.event data) =
        { r with events := r.events ++ [data] }) ∧
    (r.live → ∀ t, consumeDocument r (.stop t) =
        { r with stopTime := some t }) ∧
    (¬ r.live → consumeDocument r d = r) := by
  refine ⟨?_, ?_, ?_, ?_, ?_⟩
  · rw [stream_run_eq]
  · rw [stream_run_eq]
  · intro hl data
    exact consume_live_event r hl data
  · intro hl t
    exact consume_live_stop r hl t
  · intro hl
    have : r.stopTime.isSome := by
      rcases hr : r.stopTime with _ | t
      · exact absurd hr hl
      · simp
    simp [consumeDocument, this]

/-- Witness for Claim C3 at concrete inputs: a live run appends an event
and records a stop, and a finalized run ignores a late event. -/
theorem run_mutation_discipline_witness :
    consumeDocument ⟨some 0, none, []⟩ (.event [("det", 5)]) =
      ⟨some 0, none, [[("det", 5)]]⟩ ∧
    consumeDocument ⟨some 0, none, [[("det", 5)]]⟩ (.stop 9) =
      ⟨some 0, some 9, [[("det", 5)]]⟩ ∧
    consumeDocument ⟨some 0, some 9, [[("det", 5)]]⟩ (.event [("det", 7)]) =
      ⟨some 0, some 9, [[("det", 5)]]⟩ := by
  have h1 := run_mutation_discipline ⟨some 0, none, []⟩ (.event [("det", 5)])
    0 [] none
  have h2 := run_mutation_discipline ⟨some 0, none, [[("det", 5)]]⟩ (.stop 9)
    0 [] none
  have h3 := run_mutation_discipline ⟨some 0, some 9, [[("det", 5)]]⟩
    (.event [("det", 7)]) 0 [] none
  refine ⟨?_, ?_, ?_⟩
  · exact h1.2.2.1 rfl [("det", 5)]
  · exact h2.2.2.2.1 rfl 9
  · exact h3.2.2.2.2 (by simp [Run.live])

/-! ## Ownership in composed model trees (`models.plot_specs`, `Search`) -/

/-- Modelled from the spec: an artist spec (`LineSpec` etc.), a leaf
model object identified by a uuid. -/
structure ArtistSpec where
  uuid : Nat
deriving DecidableEq, Repr

/-- Modelled from the spec: an `AxesSpec` owns its artists by
composition. -/
structure AxesSpec where
  uuid : Nat
  artists : List ArtistSpec
deriving DecidableEq, Repr

/-- Modelled from the spec: a `FigureSpec` owns its axes by
composition. -/
structure FigureSpec where
  uuid : Nat
  axes : List AxesSpec
deriving DecidableEq, Repr

/-- The model objects an artist holds references to: none. -/
def ArtistSpec.refs (_ : ArtistSpec) : List Nat := []

/-- The model objects an axes holds references to: exactly its own child
artists. -/
def AxesSpec.refs (ax : AxesSpec) : List Nat := ax.artists.map ArtistSpec.uuid

/-- The model objects a figure holds references to: exactly its own
child axes. -/
def FigureSpec.refs (f : FigureSpec) : List Nat := f.axes.map AxesSpec.uuid

/-- The uuids of an axes and of everything it owns. -/
def axBlock (ax : AxesSpec) : List Nat := ax.uuid :: ax.artists.map ArtistSpec.uuid

/-- All uuids in a figure's model tree. -/
def FigureSpec.allUuids (f : FigureSpec) : List Nat :=
  f.uuid :: (f.axes.map axBlock).flatten

/-- A model tree is well formed when all its uuids are distinct. -/
def FigureSpec.WellFormed (f : FigureSpec) : Prop := f.allUuids.Nodup

/-- Every reference in the tree points from a parent to its own child:
no child references the figure, and no axes references a sibling
axes. -/
def FigureSpec.oneDirectional (f : FigureSpec) : Prop :=
  (∀ ax ∈ f.axes,
      f.uuid ∉ ax.refs ∧
      (∀ ax2 ∈ f.axes, ax2.uuid ≠ ax.uuid → ax2.uuid ∉ ax.refs)) ∧
  (∀ ax ∈ f.axes, ∀ a ∈ ax.artists,
      f.uuid ∉ a.refs ∧ ax.uuid ∉ a.refs ∧
      (∀ a2 ∈ ax.artists, a2.uuid ≠ a.uuid → a2.uuid ∉ a.refs))

/-- Modelled from the spec: the mutating operation a plot builder
performs on a figure: appending a new artist to the i-th axes. -/
def addArtistAt : List AxesSpec → Nat → ArtistSpec → List AxesSpec
  | [], _, _ => []
  | ax :: rest, 0, a => { ax with artists := ax.artists ++ [a] } :: rest
  | ax :: rest, i + 1, a => ax :: addArtistAt rest i a

/-- Adding an artist to the i-th axes of a figure. -/
def FigureSpec.addArtist (f : FigureSpec) (i : Nat) (a : ArtistSpec) : FigureSpec :=
  { f with axes := addArtistAt f.axes i a }

theorem figure_wf_oneDirectional (f : FigureSpec) (hw : f.WellFormed) :
    f.oneDirectional := by
  rcases List.nodup_cons.mp hw with ⟨hf, hj⟩
  rcases List.nodup_flatten.mp hj with ⟨hblocks, hpair⟩
  constructor
  · intro ax hax
    have hbmem : axBlock ax ∈ f.axes.map axBlock := List.mem_map_of_mem axBlock hax
    constructor
    · intro hcontra
      apply hf
      exact List.mem_flatten.mpr ⟨axBlock ax, hbmem,
        List.mem_cons_of_mem _ hcontra⟩
    · intro ax2 hax2 hne hcontra
      have hb2mem : axBlock ax2 ∈ f.axes.map axBlock :=
        List.mem_map_of_mem axBlock hax2
      have hbne : axBlock ax2 ≠ axBlock ax := by
        intro heq
        exact hne (by simpa [axBlock] using congrArg (fun l => l.headI) heq)
      have hdis : List.Disjoint (axBlock ax2) (axBlock ax) :=
        hpair.forall (fun _ _ h => h.symm) hb2mem hbmem hbne
      exact hdis (List.mem_cons_self _ _) (List.mem_cons_of_mem _ hcontra)
  · intro ax _ a _
    refine ⟨by simp [ArtistSpec.refs], by simp [ArtistSpec.refs], ?_⟩
    intro a2 _ _
    simp [ArtistSpec.refs]

theorem addArtistAt_flatten_perm (L : List AxesSpec) (i : Nat) (a : ArtistSpec) :
    (i < L.length →
      ((addArtistAt L i a).map axBlock).flatten.Perm
        ((L.map axBlock).flatten ++ [a.uuid])) ∧
    (L.length ≤ i → addArtistAt L i a = L) := by
  induction L generalizing i with
  | nil =>
      refine ⟨fun h => absurd h (by simp), fun _ => ?_⟩
      cases i <;> rfl
  | cons ax rest ih =>
      cases i with
      | zero =>
          refine ⟨fun _ => ?_, fun h => by simp at h⟩
          simp only [addArtistAt, List.map_cons, List.flatten_cons]
          have h1 : axBlock { ax with artists := ax.artists ++ [a] } =
              axBlock ax ++ [a.uuid] := by
            simp [axBlock]
          rw [h1, List.append_assoc, List.append_assoc]
          exact List.perm_append_comm.append_left (axBlock ax)
      | succ j =>
          constructor
          · intro h
            have hj : j < rest.length := by simpa using h
            simp only [addArtistAt, List.map_cons, List.flatten_cons]
            have := ((ih j).1 hj).append_left (axBlock ax)
            rw [← List.append_assoc] at this
            exact this
          · intro h
            have hj : rest.length ≤ j := by simpa using h
            simp [addArtistAt, (ih j).2 hj]

theorem wellFormed_addArtist (f : FigureSpec) (i : Nat) (a : ArtistSpec)
    (hw : f.WellFormed) (hu : a.uuid ∉ f.allUuids) :
    (f.addArtist i a).WellFormed := by
  by_cases hi : i < f.axes.length
  · have hperm := (addArtistAt_flatten_perm f.axes i a).1 hi
    show ((f.addArtist i a).allUuids).Nodup
    have heq : (f.addArtist i a).allUuids =
        f.uuid :: ((addArtistAt f.axes i a).map axBlock).flatten := rfl
    rw [heq]
    have hperm2 : (f.uuid :: ((addArtistAt f.axes i a).map axBlock).flatten).Perm
        (f.uuid :: ((f.axes.map axBlock).flatten ++ [a.uuid])) :=
      hperm.cons f.uuid
    rw [hperm2.nodup_iff]
    rcases List.nodup_cons.mp hw with ⟨hf, hj⟩
    rw [List.nodup_cons]
    constructor
    · intro hcontra
      rcases List.mem_append.mp hcontra with h | h
      · exact hf h
      · have : f.uuid = a.uuid := by simpa using h
        exact hu (this ▸ List.mem_cons_self _ _)
    · rw [List.nodup_append]
      refine ⟨hj, List.nodup_singleton _, ?_⟩
      rw [List.disjoint_singleton]
      intro hcontra
      exact hu (List.mem_cons_of_mem _ hcontra)
  · have heq := (addArtistAt_flatten_perm f.axes i a).2 (le_of_not_lt hi)
    show ((f.addArtist i a).allUuids).Nodup
    simp only [FigureSpec.addArtist, heq]
    exact hw

/-- Modelled from the spec: the `SearchInput` model, a leaf object; it
holds no reference to any other model object. -/
structure SearchInput where
  uuid : Nat
deriving DecidableEq, Repr

/-- Modelled from the spec: the `SearchResults` model, a leaf object; it
holds no reference to any other model object. -/
structure SearchResults where
  uuid : Nat
deriving DecidableEq, Repr

/-- Modelled from the spec: the `Search` model composes a `SearchInput`
and a `SearchResults`, which it owns. -/
structure Search where
  uuid : Nat
  input : SearchInput
  results : SearchResults
deriving DecidableEq, Repr

/-- The model objects a `SearchInput` holds references to: none. -/
def SearchInput.refs (_ : SearchInput) : List Nat := []

/-- The model objects a `SearchResults` holds references to: none. -/
def SearchResults.refs (_ : SearchResults) : List Nat := []

/-- The model objects a `Search` holds references to: its two
children. -/
def Search.refs (s : Search) : List Nat := [s.input.uuid, s.results.uuid]

/-- One-directionality of the `Search` tree: neither child references
its parent or its sibling. -/
def Search.oneDirectional (s : Search) : Prop :=
  s.uuid ∉ s.input.refs ∧ s.uuid ∉ s.results.refs ∧
  s.results.uuid ∉ s.input.refs ∧ s.input.uuid ∉ s.results.refs

/-- Claim C4: in every composed model tree (a well-formed figure owning
axes owning artists; a search owning input and results), parents hold
references to their children and no child holds a reference to its
parent or a sibling; and the mutating operation — adding an artist with
a fresh uuid — preserves this one-directional relationship. -/
theorem ownership_one_directional (f : FigureSpec) (s : Search) (i : Nat)
    (a : ArtistSpec) (hw : f.WellFormed) (hu : a.uuid ∉ f.allUuids) :
    f.oneDirectional ∧ (f.addArtist i a).oneDirectional ∧ s.oneDirectional := by
  refine ⟨figure_wf_oneDirectional f hw,
    figure_wf_oneDirectional _ (wellFormed_addArtist f i a hw hu), ?_⟩
  simp [Search.oneDirectional, SearchInput.refs, SearchResults.refs]

/-- Witness for Claim C4 at a concrete model tree: a figure with one
axes and one artist, a fresh artist added to it, and a search model. -/
theorem ownership_one_directional_witness :
    (⟨0, [⟨1, [⟨2⟩]⟩]⟩ : FigureSpec).oneDirectional ∧
    ((⟨0, [⟨1, [⟨2⟩]⟩]⟩ : FigureSpec).addArtist 0 ⟨3⟩).oneDirectional ∧
    (⟨10, ⟨11⟩, ⟨12⟩⟩ : Search).oneDirectional :=
  ownership_one_directional ⟨0, [⟨1, [⟨2⟩]⟩]⟩ ⟨10, ⟨11⟩, ⟨12⟩⟩ 0 ⟨3⟩
    (by unfold FigureSpec.WellFormed; decide) (by decide)

/-! ## Synchronous in-process signaling (the vendored event system) -/

/-- Modelled from the spec: the in-process signaling state: the model's
current value and, for each attached view, the ordered log of change
notifications it has consumed so far. -/
structure SignalSystem (M : Type) where
  model : M
  viewLogs : List (List M)

/-- Modelled from the spec: a model mutation: the model value is updated
and the resulting change notification is delivered to every attached
view synchronously, within the same call, before the mutation
returns. -/
def mutateModel {M : Type} (sys : SignalSystem M) (f : M → M) : SignalSystem M :=
  let m := f sys.model
  { model := m, viewLogs := sys.viewLogs.map (fun log => log ++ [m]) }

/-- Applying a sequence of mutations, one at a time, in order. -/
def runMutations {M : Type} (sys : SignalSystem M) (fs : List (M → M)) :
    SignalSystem M :=
  fs.foldl mutateModel sys

/-- The sequence of model states notified along a sequence of
mutations. -/
def modelTrace {M : Type} (m0 : M) : List (M → M) → List M
  | [] => []
  | f :: fs => f m0 :: modelTrace (f m0) fs

/-- Claim C5: every model mutation's change notification is raised and
consumed synchronously within the mutating call: after any sequence of
mutations, every attached view's log holds exactly the notified model
states, one per mutation, in mutation order — none deferred, queued
across steps, or dropped; the final model state is the last notified
state, and mutations are processed strictly one at a time. -/
theorem sync_notifications {M : Type} (sys : SignalSystem M) (fs : List (M → M)) :
    (runMutations sys fs).model = (modelTrace sys.model fs).getLastD sys.model ∧
    (runMutations sys fs).viewLogs =
      sys.viewLogs.map (fun log => log ++ modelTrace sys.model fs) ∧
    (∀ f, runMutations sys (fs ++ [f]) = mutateModel (runMutations sys fs) f) := by
  refine ⟨?_, ?_, ?_⟩
  · induction fs generalizing sys with
    | nil => rfl
    | cons f rest ih =>
        show (runMutations (mutateModel sys f) rest).model = _
        rw [ih (mutateModel sys f)]
        show (modelTrace (f sys.model) rest).getLastD (f sys.model) =
          (modelTrace sys.model (f :: rest)).getLastD sys.model
        rw [show modelTrace sys.model (f :: rest) =
          f sys.model :: modelTrace (f sys.model) rest from rfl,
          List.getLastD_cons]
  · induction fs generalizing sys with
    | nil => simp [runMutations, modelTrace]
    | cons f rest ih =>
        show (runMutations (mutateModel sys f) rest).viewLogs = _
        rw [ih (mutateModel sys f)]
        simp only [mutateModel, modelTrace, List.map_map]
        apply List.map_congr_left
        intro log _
        simp
  · intro f
    simp [runMutations, List.foldl_append]

/-! ## Model--view synchronization (view adapters) -/

/-- Modelled from the spec: the state of the `SearchInput` model with
its `since` and `until` fields (the design notes' example of
programmatic access). -/
structure SearchInputModel where
  since : String
  until' : String
deriving DecidableEq, Repr

/-- Modelled from the spec: the GUI widget backing the search input: the
text its two entry fields currently display. -/
structure SearchWidget where
  sinceText : String
  untilText : String
deriving DecidableEq, Repr

/-- A view adapter renders the model state into widget state. -/
def render (m : SearchInputModel) : SearchWidget := ⟨m.since, m.until'⟩

/-- Modelled from the spec: an interaction is either a programmatic
model mutation or a GUI-originated edit of a widget field. -/
inductive Interaction where
  | progSince (s : String)
  | progUntil (s : String)
  | guiSince (s : String)
  | guiUntil (s : String)
deriving DecidableEq, Repr

/-- Modelled from the spec: one step of the connected model--view
system.  A programmatic mutation updates the model, whose change
notification re-renders the widget.  A GUI edit first changes the
widget's text; the adapter then writes that text into the model, whose
change notification re-renders the widget. -/
def stepUI (st : SearchInputModel × SearchWidget) :
    Interaction → SearchInputModel × SearchWidget
  | .progSince s =>
      let m := { st.1 with since := s }
      (m, render m)
  | .progUntil s =>
      let m := { st.1 with until' := s }
      (m, render m)
  | .guiSince s =>
      let w1 := { st.2 with sinceText := s }
      let m := { st.1 with since := w1.sinceText }
      (m, render m)
  | .guiUntil s =>
      let w1 := { st.2 with untilText := s }
      let m := { st.1 with until' := w1.untilText }
      (m, render m)

/-- Running a sequence of interactions against the connected system. -/
def runUI (st : SearchInputModel × SearchWidget) (es : List Interaction) :
    SearchInputModel × SearchWidget :=
  es.foldl stepUI st

theorem stepUI_snd (st : SearchInputModel × SearchWidget) (e : Interaction) :
    (stepUI st e).2 = render (stepUI st e).1 := by
  cases e <;> rfl

/-- Claim C6: for a model with an attached view adapter, after any
interleaving of programmatic model mutations and GUI-originated edits
the widget's displayed state and the model's state agree (the widget
shows exactly the rendering of the model), and updates propagate in
both directions: a GUI edit lands in the model and a programmatic
mutation lands in the widget's text. -/
theorem model_view_synced (m0 : SearchInputModel) (w0 : SearchWidget)
    (h0 : w0 = render m0) (es : List Interaction) :
    (runUI (m0, w0) es).2 = render (runUI (m0, w0) es).1 ∧
    (∀ s, (runUI (m0, w0) (es ++ [.guiSince s])).1.since = s) ∧
    (∀ s, (runUI (m0, w0) (es ++ [.progSince s])).2.sinceText = s) := by
  refine ⟨?_, ?_, ?_⟩
  · induction es using List.reverseRecOn with
    | nil => simpa [runUI] using h0
    | append_singleton rest e _ =>
        rw [show runUI (m0, w0) (rest ++ [e]) =
          stepUI (runUI (m0, w0) rest) e by simp [runUI, List.foldl_append]]
        exact stepUI_snd _ e
  · intro s
    rw [show runUI (m0, w0) (es ++ [.guiSince s]) =
      stepUI (runUI (m0, w0) es) (.guiSince s) by simp [runUI, List.foldl_append]]
    rfl
  · intro s
    rw [show runUI (m0, w0) (es ++ [.progSince s]) =
      stepUI (runUI (m0, w0) es) (.progSince s) by simp [runUI, List.foldl_append]]
    rfl

/-- Witness for Claim C6 at a concrete run: a synced start state, one
GUI edit, then checks of sync and of both propagation directions. -/
theorem model_view_synced_witness :
    (runUI (⟨"2020", "2021"⟩, ⟨"2020", "2021"⟩) [.guiUntil "2022"]).2 =
      render (runUI (⟨"2020", "2021"⟩, ⟨"2020", "2021"⟩) [.guiUntil "2022"]).1 ∧
    (runUI (⟨"2020", "2021"⟩, ⟨"2020", "2021"⟩)
      ([.guiUntil "2022"] ++ [.guiSince "2023"])).1.since = "2023" ∧
    (runUI (⟨"2020", "2021"⟩, ⟨"2020", "2021"⟩)
      ([.guiUntil "2022"] ++ [.progSince "2024"])).2.sinceText = "2024" := by
  have h := model_view_synced ⟨"2020", "2021"⟩ ⟨"2020", "2021"⟩ rfl
    [.guiUntil "2022"]
  exact ⟨h.1, h.2.1 "2023", h.2.2 "2024"⟩

/-! ## Error propagation -/

/-- Modelled from the spec: the only failures in the library are those
raised by underlying toolkit or data-access calls; the library defines
no exception type of its own, so an operation's error type is the
toolkit's. -/
structure ToolkitError where
  message : String
deriving DecidableEq, Repr

/-- Modelled from the spec: a library operation is a pure model
computation followed by a toolkit call; it catches nothing and wraps
nothing. -/
def libraryOperation {α β γ : Type} (modelStep : α → β)
    (toolkitCall : β → Except ToolkitError γ) (x : α) : Except ToolkitError γ :=
  toolkitCall (modelStep x)

/-- Claim C7: no operation defines or raises a custom library-specific
exception: for every input on which the underlying toolkit call fails,
the library operation fails with exactly the unmodified toolkit
exception, and on every input the operation's outcome is the toolkit
call's outcome. -/
theorem no_custom_exceptions {α β γ : Type} (modelStep : α → β)
    (toolkitCall : β → Except ToolkitError γ) (x : α) (e : ToolkitError)
    (hfail : toolkitCall (modelStep x) = .error e) :
    libraryOperation modelStep toolkitCall x = .error e ∧
    (∀ y, libraryOperation modelStep toolkitCall y = toolkitCall (modelStep y)) :=
  ⟨by simp [libraryOperation, hfail], fun _ => rfl⟩

/-- Witness for Claim C7 at a concrete failing toolkit call. -/
theorem no_custom_exceptions_witness :
    libraryOperation (fun n : Nat => n + 1)
      (fun n => if n = 1 then Except.error ⟨"draw failed"⟩ else Except.ok n) 0 =
      Except.error ⟨"draw failed"⟩ :=
  (no_custom_exceptions (fun n : Nat => n + 1)
    (fun n => if n = 1 then Except.error ⟨"draw failed"⟩ else Except.ok n)
    0 ⟨"draw failed"⟩ rfl).1

/-! ## Queue-monitor address configuration (`RunEngineClient`) -/

/-- Modelled from the spec (release history v0.0.13): one address
setting of the `RunEngineClient`, resolvable from a new-style CLI
parameter, an old-style CLI parameter, a new-style environment variable
or an old-style environment variable; CLI parameters take precedence
over environment variables and new-style names over the still-supported
old-style names. -/
def resolveAddr (cliNew cliOld envNew envOld : Option String)
    (fallback : String) : String :=
  ((cliNew.or cliOld).or (envNew.or envOld)).getD fallback

/-- Modelled from the spec: the address configuration of the
`RunEngineClient`: the control channel and info channel addresses. -/
structure RunEngineClientConfig where
  zmq_control_addr : String
  zmq_info_addr : String
deriving DecidableEq, Repr

/-- Building the client configuration from the control-address and
info-address settings, each of which may arrive under its new or old
CLI or environment name. -/
def configFrom (ctrlCliNew ctrlCliOld ctrlEnvNew ctrlEnvOld
    infoCliNew infoCliOld infoEnvNew infoEnvOld : Option String) :
    RunEngineClientConfig :=
  ⟨resolveAddr ctrlCliNew ctrlCliOld ctrlEnvNew ctrlEnvOld "tcp://localhost:60615",
   resolveAddr infoCliNew infoCliOld infoEnvNew infoEnvOld "tcp://localhost:60625"⟩

/-- Claim C10: every configuration value supplied through an old-style
name (the CLI parameter or environment variable predating the rename to
`--zmq-control-addr` / `--zmq-info-addr` and
`QSERVER_ZMQ_CONTROL_ADDRESS` / `QSERVER_ZMQ_INFO_ADDRESS`) yields the
same `RunEngineClient` address configuration as supplying it through the
corresponding new name. -/
theorem old_names_same_config (v w : String) :
    configFrom none (some v) none none none (some w) none none =
      configFrom (some v) none none none (some w) none none none ∧
    configFrom none none none (some v) none none none (some w) =
      configFrom none none (some v) none none none (some w) none := by
  constructor <;> rfl

end BlueskyWidgets
